import Mathlib

/-!
# Verification of the autocomplete context-assembly engine

Shallow embedding of `core/autocomplete/constructPrompt.ts` (which bundles
`constructPrompt.ts`, `ranking.ts` and the fast chunker), and of the variant
orchestrator / directory harvester found in the second source file.

Text is modelled as `List Char` (a JavaScript string is a sequence of code
units); JavaScript numbers that hold token budgets / percentages are modelled
as `ℚ`, line numbers as `ℤ`, byte indices as `ℕ`.  External collaborators
(token counter, prune helpers, parse-tree provider, snippet services) are taken
as parameters, following the interface the source imports.
-/

/-- JavaScript strings, modelled as their sequence of characters. -/
abbrev Str := List Char

/-- Clamp a JavaScript `Array.prototype.slice` index argument into `[0, len]`:
a negative argument counts from the end. -/
def jsSliceIdx (len : Nat) (i : Int) : Nat :=
  if i < 0 then (max ((len : Int) + i) 0).toNat else min i.toNat len

/-- JavaScript `l.slice(s, e)` (also the semantics of `String.prototype.slice`). -/
def jsSlice (l : List α) (s e : Int) : List α :=
  (l.take (jsSliceIdx l.length e)).drop (jsSliceIdx l.length s)

/-- JavaScript `l.slice(s)`. -/
def jsSliceFrom (l : List α) (s : Int) : List α :=
  jsSlice l s l.length

/-- JavaScript `str.split('\n')` on the character list of a string. -/
def splitNL : Str → List Str
  | [] => [[]]
  | c :: rest =>
    if c = '\n' then [] :: splitNL rest
    else
      match splitNL rest with
      | [] => [[c]]
      | h :: t => (c :: h) :: t

/-- `('\n' :: b₀) ++ ('\n' :: b₁) ++ …` — the tail of a `join('\n')`. -/
def joinTailNL (bs : List Str) : Str :=
  (bs.map (fun b => '\n' :: b)).flatten

/-- JavaScript `lines.join('\n')`. -/
def intercalNL : List Str → Str
  | [] => []
  | b :: bs => b ++ joinTailNL bs

/-- JavaScript `haystack.includes(needle)`: contiguous-substring test. -/
def jsIncludes [BEq α] (hay needle : List α) : Bool :=
  needle.isPrefixOf hay ||
    match hay with
    | [] => false
    | _ :: t => jsIncludes t needle

/-- JavaScript `String.prototype.trim`. -/
def trimStr (s : Str) : Str :=
  ((s.dropWhile Char.isWhitespace).reverse.dropWhile Char.isWhitespace).reverse

/-- Truncation toward zero, the JavaScript `ToIntegerOrInfinity` conversion
applied by `slice` to a fractional argument. -/
def jsTrunc (q : ℚ) : Int :=
  if q < 0 then -(⌊-q⌋) else ⌊q⌋

/-- `Position` of the data model (`{line, character}`). -/
structure Pos where
  line : Int
  character : Int
deriving DecidableEq, Repr

/-- `Range` of the data model; field `end` is spelled `«end»`. -/
structure Range where
  start : Pos
  «end» : Pos
deriving DecidableEq, Repr

/-- `AutocompleteSnippet = RangeInFileWithContents & { score?: number }`. -/
structure AutocompleteSnippet where
  filepath : String
  range : Range
  contents : Str
  score : Option ℚ
deriving DecidableEq, Repr

/-- `Required<AutocompleteSnippet>`: the score is present. -/
structure ScoredSnippet where
  filepath : String
  range : Range
  contents : Str
  score : ℚ
deriving DecidableEq, Repr

/-- Forget that the score is present (`Required<T>` is a subtype of `T`). -/
def ScoredSnippet.toSnippet (s : ScoredSnippet) : AutocompleteSnippet :=
  { filepath := s.filepath, range := s.range, contents := s.contents,
    score := some s.score }

/-- The `TabAutocompleteOptions` fields read by the orchestrator. -/
structure TabAutocompleteOptions where
  maxPromptTokens : ℚ
  prefixPercentage : ℚ
  maxSuffixPercentage : ℚ
  maxSnippetPercentage : ℚ
  slidingWindowSize : ℚ
  slidingWindowPrefixPercentage : ℚ
  recentlyEditedSimilarityThreshold : ℚ
  recentLinePrefixMatchMinLength : ℚ
  useOtherFiles : Bool
  useRecentlyEdited : Bool
  useImports : Bool
  useRootPathContext : Bool
deriving Repr

/-- External `RecentlyEditedRange` (a range-in-file plus its cached lines). -/
structure RecentlyEditedRange where
  filepath : String
  range : Range
  lines : List Str
deriving DecidableEq, Repr

/-! ## `ranking.ts` — similarity scorer -/

/-- One character of the separator class
`/[\s.,\/#!$%\^&\*;:{}=\-_~()\[\]]/` used by `getSymbolsForSnippet`. -/
def isRxSeparator (c : Char) : Bool :=
  c.isWhitespace || c ∈ ['.', ',', '/', '#', '!', '$', '%', '^', '&', '*',
    ';', ':', '{', '}', '=', '-', '_', '~', '(', ')', '[', ']']

/-- JavaScript `str.split(regex)` for a single-character separator class. -/
def splitOnPred (p : Char → Bool) : Str → List Str
  | [] => [[]]
  | c :: rest =>
    if p c then [] :: splitOnPred p rest
    else
      match splitOnPred p rest with
      | [] => [[c]]
      | h :: t => (c :: h) :: t

/-- First-occurrence deduplication, threading the elements already seen. -/
def firstOccurrencesAux [DecidableEq α] (seen : List α) : List α → List α
  | [] => []
  | x :: rest =>
    if x ∈ seen then firstOccurrencesAux seen rest
    else x :: firstOccurrencesAux (x :: seen) rest

/-- First-occurrence deduplication: the iteration order of a JavaScript `Set`
built by successive insertions. -/
def firstOccurrences [DecidableEq α] (l : List α) : List α :=
  firstOccurrencesAux [] l

/-- `getSymbolsForSnippet`: split on the separator class, trim, drop empties;
the resulting `Set` is modelled as its insertion-ordered element list. -/
def getSymbolsForSnippet (snippet : Str) : List Str :=
  firstOccurrences (((splitOnPred isRxSeparator snippet).map trimStr).filter
    (fun s => s ≠ []))

/-- A word character of the regex `/\b[A-Za-z_][A-Za-z0-9_]*\b/`:
`[A-Za-z0-9_]`. -/
def isWordChar (c : Char) : Bool :=
  c.isAlpha || c.isDigit || c = '_'

/-- Maximal runs of word characters, threading the reversed current run. -/
def wordRunsAux (current : Str) : Str → List Str
  | [] => if current = [] then [] else [current.reverse]
  | c :: rest =>
    if isWordChar c then wordRunsAux (c :: current) rest
    else if current = [] then wordRunsAux [] rest
    else current.reverse :: wordRunsAux [] rest

/-- Maximal runs of word characters of a string. -/
def wordRuns (s : Str) : List Str :=
  wordRunsAux [] s

/-- `getSymbolsForSnippet_fast`: all matches of
`/\b[A-Za-z_][A-Za-z0-9_]*\b/g`, i.e. the maximal word-character runs whose
first character is a letter or an underscore, collected into a set. -/
def getSymbolsForSnippet_fast (snippet : Str) : Finset Str :=
  ((wordRuns snippet).filter
    (fun r => match r with
      | c :: _ => c.isAlpha || c = '_'
      | [] => false)).toFinset

/-- `jaccardSimilarity`: `|A ∩ B| / |A ∪ B|`, `0` when the union is empty.
The source iterates over `aSet` counting membership in `bSet`; the unused
logging handle is dropped. -/
def jaccardSimilarity (a b : Str) : ℚ :=
  let aSet := getSymbolsForSnippet_fast a
  let bSet := getSymbolsForSnippet_fast b
  let union := (aSet ∪ bSet).card
  if union = 0 then 0
  else ((aSet.filter (fun s => s ∈ bSet)).card : ℚ) / (union : ℚ)

/-! ## `ranking.ts` — deduplication and merging -/

/-- `mergeOverlappingRangeContents(first, second)`: the last
`first.range.end.line - second.range.start.line` lines of `first` (via
JavaScript `slice(-n)`), a newline, then all of `second`. -/
def mergeOverlappingRangeContents (first second : ScoredSnippet) : Str :=
  let firstLines := splitNL first.contents
  let numOverlapping := first.range.«end».line - second.range.start.line
  intercalNL (jsSliceFrom firstLines (-numOverlapping)) ++ '\n' :: second.contents

/-- One merge of `mergeSnippetsByRange`'s sweep: the source mutates the
running snippet's score and `range.end` first, and only then recomputes the
contents from the (already updated) running snippet. -/
def mergeStep (last next : ScoredSnippet) : ScoredSnippet :=
  let updated : ScoredSnippet :=
    { last with
      score := max last.score next.score,
      range := { start := last.range.start, «end» := next.range.«end» } }
  { updated with contents := mergeOverlappingRangeContents updated next }

/-- The `while (sorted.length > 0)` sweep of `mergeSnippetsByRange`; the
accumulator holds the `merged` array in reverse so its last element is at
hand. -/
def mergeSweep (mergedRev : List ScoredSnippet) :
    List ScoredSnippet → List ScoredSnippet
  | [] => mergedRev.reverse
  | next :: rest =>
    match mergedRev with
    | [] => mergeSweep [next] rest
    | last :: others =>
      if next.range.start.line ≤ last.range.«end».line then
        mergeSweep (mergeStep last next :: others) rest
      else
        mergeSweep (next :: last :: others) rest

/-- The ascending-by-start-line comparator of `mergeSnippetsByRange`. -/
def byStartLine (a b : ScoredSnippet) : Prop :=
  a.range.start.line ≤ b.range.start.line

instance : DecidableRel byStartLine := fun x y =>
  inferInstanceAs (Decidable (x.range.start.line ≤ y.range.start.line))

/-- `mergeSnippetsByRange`: sort ascending by start line (JavaScript's sort is
stable; modelled by insertion sort) and sweep, merging while the next snippet
starts at or before the running snippet's end line. -/
def mergeSnippetsByRange (snippets : List ScoredSnippet) : List ScoredSnippet :=
  if snippets.length ≤ 1 then snippets
  else mergeSweep [] (snippets.insertionSort byStartLine)

/-- `deduplicateSnippets`: group by `filepath` (object keys iterate in first
insertion order) and merge each group. -/
def deduplicateSnippets (snippets : List ScoredSnippet) : List ScoredSnippet :=
  ((firstOccurrences (snippets.map (fun s => s.filepath))).map
    (fun file => mergeSnippetsByRange
      (snippets.filter (fun s => s.filepath = file)))).flatten

/-- The descending-by-score comparator of `rankSnippets`. -/
def byScoreDesc (a b : ScoredSnippet) : Prop :=
  b.score ≤ a.score

instance : DecidableRel byScoreDesc := fun x y =>
  inferInstanceAs (Decidable (y.score ≤ x.score))

/-- `rankSnippets`: default every missing score to the Jaccard similarity
against the window, deduplicate, and stable-sort descending by score. -/
def rankSnippets (ranges : List AutocompleteSnippet) (windowAroundCursor : Str) :
    List ScoredSnippet :=
  let snippets : List ScoredSnippet := ranges.map (fun snippet =>
    { filepath := snippet.filepath, range := snippet.range,
      contents := snippet.contents,
      score := snippet.score.getD
        (jaccardSimilarity snippet.contents windowAroundCursor) })
  (deduplicateSnippets snippets).insertionSort byScoreDesc

/-! ## `ranking.ts` — greedy token-budget fill -/

/-- The greedy prefix of `lines` accepted by the partial fill: a line is kept
while its token count still fits in the remaining budget. -/
def acceptedLines (cnt : Str → Nat) : List Str → ℚ → List Str
  | [], _ => []
  | line :: rest, remaining =>
    if 0 ≤ remaining - cnt line then
      line :: acceptedLines cnt rest (remaining - cnt line)
    else []

/-- `partialContents += (partialContents ? '\n' : '') + line` folded over the
accepted lines. -/
def joinCollapse (acc : Str) : List Str → Str
  | [] => acc
  | line :: rest =>
    joinCollapse (if acc = [] then line else acc ++ '\n' :: line) rest

/-- The inner line loop of `fillPromptWithSnippets`: returns the accumulated
partial contents and the remaining budget. -/
def fillLines (cnt : Str → Nat) (lines : List Str) (remaining : ℚ) (acc : Str) :
    Str × ℚ
  :=
  match lines with
  | [] => (acc, remaining)
  | line :: rest =>
    if 0 ≤ remaining - cnt line then
      fillLines cnt rest (remaining - cnt line)
        (if acc = [] then line else acc ++ '\n' :: line)
    else (acc, remaining)

/-- The loop of `fillPromptWithSnippets`, also exposing the final
`tokensRemaining`.  A snippet whose full token count fits is kept whole;
otherwise its lines are filled greedily, the partial snippet is kept when
non-empty, and the loop `break`s. -/
def fillAux (cnt : Str → Nat) : List ScoredSnippet → ℚ → List ScoredSnippet × ℚ
  | [], remaining => ([], remaining)
  | snippet :: rest, remaining =>
    let tokenCount := cnt snippet.contents
    if 0 ≤ remaining - tokenCount then
      let (kept, remaining') := fillAux cnt rest (remaining - tokenCount)
      (snippet :: kept, remaining')
    else
      let (partialContents, remaining') :=
        fillLines cnt (splitNL snippet.contents) remaining []
      if partialContents = [] then ([], remaining')
      else ([{ snippet with contents := partialContents }], remaining')

/-- `fillPromptWithSnippets(snippets, maxSnippetTokens, modelName)`; the
external token counter is a parameter. -/
def fillPromptWithSnippets (cnt : Str → Nat) (snippets : List ScoredSnippet)
    (maxSnippetTokens : ℚ) : List ScoredSnippet :=
  (fillAux cnt snippets maxSnippetTokens).1

/-! ## `ranking.ts` — range algebra -/

/-- `rangeIntersectionByLines`: `null` when `max start >= min end`. -/
def rangeIntersectionByLines (a b : Range) : Option Range :=
  let startLine := max a.start.line b.start.line
  let endLine := min a.«end».line b.«end».line
  if startLine ≥ endLine then none
  else some { start := { line := startLine, character := 0 },
              «end» := { line := endLine, character := 0 } }

/-- `rangeDifferenceByLines`: remove `rem` from `orig` by the same four line
tests, in the source's order. -/
def rangeDifferenceByLines (orig rem : Range) : List Range :=
  if orig.start.line ≥ rem.start.line ∧ orig.«end».line ≤ rem.«end».line then
    []
  else if orig.start.line ≤ rem.start.line ∧ orig.«end».line ≥ rem.«end».line then
    [{ start := orig.start, «end» := rem.start },
     { start := rem.«end», «end» := orig.«end» }]
  else if orig.start.line ≥ rem.start.line ∧ orig.«end».line ≥ rem.«end».line then
    [{ start := rem.«end», «end» := orig.«end» }]
  else if orig.start.line ≤ rem.start.line ∧ orig.«end».line ≤ rem.«end».line then
    [{ start := orig.start, «end» := rem.start }]
  else [orig]

/-- `removeRangeFromSnippets`: snippets of other files pass through; snippets
of `filepath` have the intersection with `range` subtracted, each remaining
sub-range keeping the snippet's score and contents. -/
def removeRangeFromSnippets (snippets : List ScoredSnippet) (filepath : String)
    (range : Range) : List ScoredSnippet :=
  match snippets with
  | [] => []
  | snippet :: rest =>
    (if snippet.filepath ≠ filepath then [snippet]
     else
       match rangeIntersectionByLines range snippet.range with
       | none => [snippet]
       | some intersection =>
         (rangeDifferenceByLines snippet.range intersection).map
           (fun r => { snippet with range := r }))
    ++ removeRangeFromSnippets rest filepath range

/-! ## Directory harvesting (`getFilesFromDirectory`) -/

/-- A filesystem entry as seen by `fs.readdir(..., { withFileTypes: true })`:
a file, or a directory with its own entries.  Paths are modelled as their
component lists, `path.join(directory, entry.name)` as appending one
component. -/
inductive FSEntry where
  | file (name : String)
  | dir (name : String) (entries : List FSEntry)
deriving Repr

/-- `getFilesFromDirectory` over the entries of the directory at `dirPath`:
recurse into subdirectories, collect full paths of files, in `readdir`
order. -/
def getFilesFromDirectory (dirPath : List String) :
    List FSEntry → List (List String)
  | [] => []
  | FSEntry.file name :: rest =>
    (dirPath ++ [name]) :: getFilesFromDirectory dirPath rest
  | FSEntry.dir name entries :: rest =>
    getFilesFromDirectory (dirPath ++ [name]) entries
      ++ getFilesFromDirectory dirPath rest

/-- The directories on which the walk of `getFilesFromDirectory` calls
`fs.readdir`, below the starting directory, in visit order. -/
def visitedDirs (dirPath : List String) : List FSEntry → List (List String)
  | [] => []
  | FSEntry.file _ :: rest => visitedDirs dirPath rest
  | FSEntry.dir name entries :: rest =>
    (dirPath ++ [name]) :: (visitedDirs (dirPath ++ [name]) entries
      ++ visitedDirs dirPath rest)

/-- The number of files in a list of entries, recursively. -/
def totalFiles : List FSEntry → Nat
  | [] => 0
  | FSEntry.file _ :: rest => 1 + totalFiles rest
  | FSEntry.dir _ entries :: rest => totalFiles entries + totalFiles rest

/-- The name of an entry. -/
def entryName : FSEntry → String
  | FSEntry.file name => name
  | FSEntry.dir name _ => name

/-- Sibling names are pairwise distinct at every level: what a real directory
tree always satisfies. -/
def wfEntries : List FSEntry → Bool
  | [] => true
  | FSEntry.file name :: rest =>
    (rest.all (fun e => entryName e ≠ name)) && wfEntries rest
  | FSEntry.dir name entries :: rest =>
    (rest.all (fun e => entryName e ≠ name)) && wfEntries entries
      && wfEntries rest

/-- A flat directory containing `n` files — used to show the walk enforces no
file-count cap. -/
def flatFiles (n : Nat) : List FSEntry :=
  (List.range n).map (fun i => FSEntry.file (toString i))

/-! ## Fast chunker (`fastChunk` / `processNode` / `collapseLargeBlock`) -/

/-- The chunker's constants. -/
def MAX_BLOCK_SIZE : Nat := 2000

/-- The chunker's constants. -/
def MIN_BLOCK_SIZE : Nat := 300

/-- An opaque `web-tree-sitter` node, reduced to the fields the chunker
reads: `type`, byte offsets, row positions and ordered children. -/
inductive SyntaxNode where
  | mk (type_ : String) (startIndex endIndex : Nat) (startRow endRow : Int)
      (children : List SyntaxNode)
deriving Repr

/-- `node.startIndex`. -/
def SyntaxNode.startIndex : SyntaxNode → Nat
  | .mk _ s _ _ _ _ => s

/-- `node.endIndex`. -/
def SyntaxNode.endIndex : SyntaxNode → Nat
  | .mk _ _ e _ _ _ => e

/-- `node.startPosition.row`. -/
def SyntaxNode.startRow : SyntaxNode → Int
  | .mk _ _ _ r _ _ => r

/-- `node.endPosition.row`. -/
def SyntaxNode.endRow : SyntaxNode → Int
  | .mk _ _ _ _ r _ => r

/-- `node.children`. -/
def SyntaxNode.children : SyntaxNode → List SyntaxNode
  | .mk _ _ _ _ _ cs => cs

/-- `node.text`: the source text spanned by the node. -/
def nodeText (node : SyntaxNode) (code : Str) : Str :=
  jsSlice code (node.startIndex : Int) (node.endIndex : Int)

/-- The snippet emitted for a node (line-granular range, character `0`). -/
def nodeSnippet (filepath : String) (node : SyntaxNode) (contents : Str) :
    AutocompleteSnippet :=
  { filepath := filepath,
    range := { start := { line := node.startRow, character := 0 },
               «end» := { line := node.endRow, character := 0 } },
    contents := contents, score := none }

mutual

/-- `collapseLargeBlock(node, code, filepath)`: renders the node's text with
each mid-sized child replaced by `"{ ... }"` (recording that child as a
fragment) and each over-large child replaced by its own collapsed rendering.
The source accumulates fragments in the process-wide `collectedChunks`; here
the fragment list is returned alongside the rendered text, in push order. -/
def collapseLargeBlock (node : SyntaxNode) (code : Str) (filepath : String) :
    Str × List AutocompleteSnippet :=
  collapseChildren code filepath node.startIndex node.children
    (jsSlice code (node.startIndex : Int) (node.endIndex : Int))
termination_by sizeOf node
decreasing_by
  cases node
  simp [SyntaxNode.children]
  try omega

/-- The `for (const child of node.children)` loop of `collapseLargeBlock`,
threading `classCode` (offsets are taken against the parent's original
`startIndex`, as in the source). -/
def collapseChildren (code : Str) (filepath : String) (nodeStart : Nat) :
    List SyntaxNode → Str → Str × List AutocompleteSnippet
  | [], classCode => (classCode, [])
  | child :: rest, classCode =>
    let childLength := child.endIndex - child.startIndex
    if childLength < MIN_BLOCK_SIZE then
      collapseChildren code filepath nodeStart rest classCode
    else if childLength > MAX_BLOCK_SIZE then
      let inner := collapseLargeBlock child code filepath
      let classCode' :=
        jsSlice classCode 0 ((child.startIndex : Int) - (nodeStart : Int))
          ++ inner.1
          ++ jsSliceFrom classCode ((child.endIndex : Int) - (nodeStart : Int))
      let tail := collapseChildren code filepath nodeStart rest classCode'
      (tail.1, inner.2 ++ tail.2)
    else
      let chunk := nodeSnippet filepath child (nodeText child code)
      let classCode' :=
        jsSlice classCode 0 ((child.startIndex : Int) - (nodeStart : Int))
          ++ ("\x7b ... \x7d" : String).data
          ++ jsSliceFrom classCode ((child.endIndex : Int) - (nodeStart : Int))
      let tail := collapseChildren code filepath nodeStart rest classCode'
      (tail.1, chunk :: tail.2)
termination_by cs _ => sizeOf cs
decreasing_by
  all_goals simp
  all_goals try omega

end

/-- `processNode`: over-large nodes yield the collapsed skeleton then the
collapsed-out fragments; mid-sized nodes yield themselves whole; small nodes
yield nothing. -/
def processNode (filepath : String) (node : SyntaxNode) (code : Str) :
    List AutocompleteSnippet :=
  let nodeLength := node.endIndex - node.startIndex
  if nodeLength > MAX_BLOCK_SIZE then
    let collapsed := collapseLargeBlock node code filepath
    nodeSnippet filepath node collapsed.1 :: collapsed.2
  else if nodeLength > MIN_BLOCK_SIZE then
    [nodeSnippet filepath node (nodeText node code)]
  else []

/-! ## `constructPrompt.ts` — the orchestrators -/

/-- The return shape of `constructAutocompletePrompt`; the `prefix`/`suffix`
fields are spelled `prefixText`/`suffixText`. -/
structure PromptResult where
  prefixText : Str
  suffixText : Str
  useFim : Bool
  completeMultiline : Bool
  snippets : List AutocompleteSnippet
deriving Repr

set_option linter.unusedVariables false in
/-- The `constructAutocompletePrompt` of `core/autocomplete/constructPrompt.ts`
(the active, non-`_origin` variant).  External collaborators are parameters:
the prune helpers and token counter of `llm/countTokens.js`, the multiline
decision, and the `walkDirAsync` directory walker together with
`ide.getWorkspaceDirs()`.  The walk results are pushed into the local
`workspaceFiles` array, which is never read again, and `snippets` stays `[]`. -/
def constructAutocompletePrompt
    (pruneLinesFromTop pruneLinesFromBottom : Str → ℚ → Str)
    (countTokensF : Str → Nat)
    (shouldCompleteMultilineF : Bool)
    (workspaceDirs : List String)
    (walkDirAsyncF : String → List String)
    (options : TabAutocompleteOptions)
    (fullPrefixText fullSuffixText : Str) : PromptResult :=
  let maxPrefixTokens := options.maxPromptTokens * options.prefixPercentage
  let prefixText := pruneLinesFromTop fullPrefixText maxPrefixTokens
  let maxSuffixTokens :=
    min (options.maxPromptTokens - (countTokensF prefixText : ℚ))
      (options.maxSuffixPercentage * options.maxPromptTokens)
  let suffixText := pruneLinesFromBottom fullSuffixText maxSuffixTokens
  let snippets : List AutocompleteSnippet := []
  let workspaceFiles := workspaceDirs.map (fun directory => walkDirAsyncF directory)
  { prefixText := prefixText, suffixText := suffixText, useFim := true,
    completeMultiline := shouldCompleteMultilineF, snippets := snippets }

/-- The last segment of a JavaScript `str.split("://")`: what
`filepath.split("://").slice(-1)[0]` evaluates to, scanning left to right and
restarting the segment after each `"://"`. -/
def lastSegmentAux (current : Str) : Str → Str
  | [] => current.reverse
  | ':' :: '/' :: '/' :: rest => lastSegmentAux [] rest
  | c :: rest => lastSegmentAux (c :: current) rest

/-- `filepath.split("://").slice(-1)[0]` on a path. -/
def stripUriScheme (filepath : String) : String :=
  ⟨lastSegmentAux [] filepath.data⟩

set_option linter.unusedVariables false in
/-- `constructAutocompletePrompt_origin`: the full pipeline.  External
collaborators are parameters: prune helpers and token counter, the AST path
(`treePath`, best-effort), `findMatchingRange` over the recently-edited
ranges, the import-definitions lookup (`none` models a missing `fileInfo`;
per symbol, `none` models `imports[symbol]` not being an array), the
root-path-context result, and the language's `topLevelKeywords`. -/
def constructAutocompletePrompt_origin
    (pruneLinesFromTop pruneLinesFromBottom : Str → ℚ → Str)
    (countTokensF : Str → Nat)
    (treePath : Option Unit)
    (findMatchingRangeF : Str → Option RecentlyEditedRange)
    (fileInfo : Option (Str → Option (List AutocompleteSnippet)))
    (rootPathContext : List AutocompleteSnippet)
    (topLevelKeywords : List Str)
    (shouldCompleteMultilineF : Bool)
    (options : TabAutocompleteOptions)
    (filepath : String) (cursorLine : Int)
    (fullPrefixText fullSuffixText : Str)
    (extraSnippets : List AutocompleteSnippet) : PromptResult :=
  let maxPrefixTokens := options.maxPromptTokens * options.prefixPercentage
  let prefixText := pruneLinesFromTop fullPrefixText maxPrefixTokens
  let maxSuffixTokens :=
    min (options.maxPromptTokens - (countTokensF prefixText : ℚ))
      (options.maxSuffixPercentage * options.maxPromptTokens)
  let suffixText := pruneLinesFromBottom fullSuffixText maxSuffixTokens
  let snippets : List AutocompleteSnippet :=
    if options.useOtherFiles then
      let windowAroundCursor :=
        jsSliceFrom fullPrefixText
          (jsTrunc (-(options.slidingWindowSize
            * options.slidingWindowPrefixPercentage)))
        ++ jsSliceFrom fullSuffixText
          (jsTrunc (options.slidingWindowSize
            * (1 - options.slidingWindowPrefixPercentage)))
      let recentlyEditedSnippets : List AutocompleteSnippet :=
        if options.useRecentlyEdited then
          let currentLineStart := (splitNL (trimStr prefixText)).getLastD []
          if options.recentLinePrefixMatchMinLength
              < (currentLineStart.length : ℚ) then
            match findMatchingRangeF currentLineStart with
            | some matchingRange =>
              [{ filepath := matchingRange.filepath,
                 range := matchingRange.range,
                 contents := intercalNL matchingRange.lines,
                 score := some ((8 : ℚ) / 10) }]
            | none => []
          else []
        else []
      let importSnippets : List AutocompleteSnippet :=
        if options.useImports then
          match fileInfo with
          | none => []
          | some imports =>
            let textAroundCursor :=
              intercalNL (jsSliceFrom (splitNL fullPrefixText) (-5))
                ++ intercalNL (jsSlice (splitNL fullSuffixText) 0 3)
            let symbols := (getSymbolsForSnippet textAroundCursor).filter
              (fun symbol => ¬ topLevelKeywords.contains symbol)
            (symbols.map (fun symbol => (imports symbol).getD [])).flatten
        else []
      let rootPathSnippets : List AutocompleteSnippet :=
        if options.useRootPathContext && treePath.isSome then rootPathContext
        else []
      let collected :=
        extraSnippets ++ recentlyEditedSnippets ++ importSnippets
          ++ rootPathSnippets
      let filtered := collected.filter (fun s =>
        trimStr s.contents ≠ []
          ∧ ¬ jsIncludes (prefixText ++ suffixText) (trimStr s.contents))
      let scoredSnippets := rankSnippets filtered windowAroundCursor
      let maxSnippetTokens :=
        options.maxPromptTokens * options.maxSnippetPercentage
      let prefixLines := (splitNL prefixText).length
      let suffixLines := (splitNL suffixText).length
      let buffer : Int := 8
      let prefixSuffixRangeWithBuffer : Range :=
        { start := { line := cursorLine - prefixLines - buffer, character := 0 },
          «end» := { line := cursorLine + suffixLines + buffer, character := 0 } }
      let finalSnippets := removeRangeFromSnippets scoredSnippets
        (stripUriScheme filepath) prefixSuffixRangeWithBuffer
      let finalSnippetsAboveThreshold := finalSnippets.filter
        (fun snippet => options.recentlyEditedSimilarityThreshold ≤ snippet.score)
      let finalSnippetsFilled :=
        fillPromptWithSnippets countTokensF scoredSnippets maxSnippetTokens
      finalSnippetsFilled.map ScoredSnippet.toSnippet
    else []
  { prefixText := prefixText, suffixText := suffixText, useFim := true,
    completeMultiline := shouldCompleteMultilineF, snippets := snippets }

/-! ## Similarity scorer properties -/

/-- Symmetry of the Jaccard similarity. -/
theorem jaccardSimilarity_comm (a b : Str) :
    jaccardSimilarity a b = jaccardSimilarity b a := by
  simp only [jaccardSimilarity]
  have h : ((getSymbolsForSnippet_fast a).filter
        (fun s => s ∈ getSymbolsForSnippet_fast b)).card
      = ((getSymbolsForSnippet_fast b).filter
        (fun s => s ∈ getSymbolsForSnippet_fast a)).card := by
    rw [Finset.filter_mem_eq_inter, Finset.filter_mem_eq_inter,
      Finset.inter_comm]
  rw [Finset.union_comm, h]

/-- Reflexive similarity is `1` once some word symbol is present. -/
theorem jaccardSimilarity_self (a : Str)
    (h : getSymbolsForSnippet_fast a ≠ ∅) : jaccardSimilarity a a = 1 := by
  simp only [jaccardSimilarity]
  have hcard : (getSymbolsForSnippet_fast a).card ≠ 0 := by
    simpa [Finset.card_eq_zero] using h
  have hfilter : (getSymbolsForSnippet_fast a).filter
      (fun s => s ∈ getSymbolsForSnippet_fast a) = getSymbolsForSnippet_fast a :=
    Finset.filter_mem_eq_inter.trans (Finset.inter_self _)
  rw [Finset.union_self, if_neg hcard, hfilter,
    div_self (by exact_mod_cast hcard)]

/-- C7 (amended): `similarity` is symmetric; `similarity(a,a) = 1` for every
`a` containing at least one word symbol (rather than every non-empty `a`);
and the similarity of two empty strings is `0`. -/
theorem C7_similarity_algebra :
    (∀ a b : Str, jaccardSimilarity a b = jaccardSimilarity b a) ∧
      (∀ a : Str, getSymbolsForSnippet_fast a ≠ ∅ → jaccardSimilarity a a = 1) ∧
      jaccardSimilarity [] [] = 0 :=
  ⟨jaccardSimilarity_comm, jaccardSimilarity_self, by decide⟩

/-- Witness for C7: `"foo"` has a word symbol and its self-similarity is `1`. -/
theorem C7_similarity_witness :
    getSymbolsForSnippet_fast "foo".data ≠ ∅ ∧
      jaccardSimilarity "foo".data "foo".data = 1 :=
  ⟨by decide, C7_similarity_algebra.2.1 "foo".data (by decide)⟩

/-- Counterexample for C7 as stated: `"!"` is non-empty but its
self-similarity is `0`, not `1` (it contains no word symbol). -/
theorem C7_similarity_counterexample :
    (['!'] : Str) ≠ [] ∧ jaccardSimilarity ['!'] ['!'] = 0 ∧
      jaccardSimilarity ['!'] ['!'] ≠ 1 := by
  refine ⟨by decide, by decide, by decide⟩

/-! ## Chunker properties -/

/-- C9 (amended): a root strictly larger than `MIN_BLOCK_SIZE` and at most
`MAX_BLOCK_SIZE` is emitted whole as exactly one fragment; a root of size at
most `MIN_BLOCK_SIZE` — including exactly `MIN_BLOCK_SIZE = 300` — yields no
fragment. -/
theorem C9_processNode_bounds (filepath : String) (node : SyntaxNode)
    (code : Str) :
    (MIN_BLOCK_SIZE < node.endIndex - node.startIndex →
        node.endIndex - node.startIndex ≤ MAX_BLOCK_SIZE →
        processNode filepath node code
          = [nodeSnippet filepath node (nodeText node code)]) ∧
      (node.endIndex - node.startIndex ≤ MIN_BLOCK_SIZE →
        processNode filepath node code = []) := by
  unfold processNode
  simp only [MIN_BLOCK_SIZE, MAX_BLOCK_SIZE] at *
  constructor
  · intro h1 h2
    rw [if_neg (by omega), if_pos (by omega)]
  · intro h
    rw [if_neg (by omega), if_neg (by omega)]

/-- Witness for C9: a childless root of size `301` is emitted whole. -/
theorem C9_processNode_witness :
    MIN_BLOCK_SIZE <
        (SyntaxNode.mk "root" 0 301 0 10 []).endIndex
          - (SyntaxNode.mk "root" 0 301 0 10 []).startIndex ∧
      processNode "a.ts" (SyntaxNode.mk "root" 0 301 0 10 []) "".data
        = [nodeSnippet "a.ts" (SyntaxNode.mk "root" 0 301 0 10 [])
            (nodeText (SyntaxNode.mk "root" 0 301 0 10 []) "".data)] :=
  ⟨by decide,
    (C9_processNode_bounds "a.ts" (SyntaxNode.mk "root" 0 301 0 10 [])
      "".data).1 (by decide) (by decide)⟩

/-- Counterexample for C9 as stated: a root of size exactly `300` lies inside
the claimed inclusive band `[MIN, MAX]` but yields no fragment at all (the
source tests `nodeLength > MIN_BLOCK_SIZE`, strictly). -/
theorem C9_processNode_counterexample :
    MIN_BLOCK_SIZE ≤ 300 ∧ 300 ≤ MAX_BLOCK_SIZE ∧
      processNode "a.ts" (SyntaxNode.mk "root" 0 300 0 10 []) "".data = [] := by
  refine ⟨by decide, by decide, by decide⟩

/-! ## Orchestrator properties -/

/-- C2: the active `constructAutocompletePrompt` always returns an empty
snippet list — the directory-walk results feed a local array that is never
read, and `snippets` is never reassigned after its initialisation. -/
theorem C2_snippets_always_empty
    (pruneLinesFromTop pruneLinesFromBottom : Str → ℚ → Str)
    (countTokensF : Str → Nat) (shouldCompleteMultilineF : Bool)
    (workspaceDirs : List String) (walkDirAsyncF : String → List String)
    (options : TabAutocompleteOptions) (fullPrefixText fullSuffixText : Str) :
    (constructAutocompletePrompt pruneLinesFromTop pruneLinesFromBottom
      countTokensF shouldCompleteMultilineF workspaceDirs walkDirAsyncF
      options fullPrefixText fullSuffixText).snippets = [] :=
  rfl

/-- C1: evaluating `constructAutocompletePrompt_origin` with the use-other-files
feature enabled, a similarity threshold of `1/2` and a single candidate snippet
scoring `0` against the window: the returned packed list still contains that
snippet (score `0 < 1/2`), because the greedy fill is applied to
`scoredSnippets` — the ranked list from before the range-exclusion and
threshold-filter steps — whose result overwrites the filtered list. -/
theorem C1_fill_ignores_threshold_filter :
    ((constructAutocompletePrompt_origin
      (fun s _ => s) (fun s _ => s) (fun s => s.length)
      none (fun _ => none) none [] [] false
      { maxPromptTokens := 100, prefixPercentage := 1, maxSuffixPercentage := 1,
        maxSnippetPercentage := 1, slidingWindowSize := 0,
        slidingWindowPrefixPercentage := 0,
        recentlyEditedSimilarityThreshold := 1/2,
        recentLinePrefixMatchMinLength := 0, useOtherFiles := true,
        useRecentlyEdited := false, useImports := false,
        useRootPathContext := false }
      "cur.ts" 100 "bar".data []
      [⟨"a.ts", ⟨⟨0, 0⟩, ⟨1, 0⟩⟩, "foo".data, none⟩]).snippets.map
        (fun s => s.score) = [some 0])
    ∧ ¬ ((1 : ℚ) / 2 ≤ 0) := by
  constructor
  · with_unfolding_all decide
  · with_unfolding_all decide

/-! ## Line-splitting lemmas -/

/-- `split('\n')` never returns an empty list. -/
theorem splitNL_ne_nil (s : Str) : splitNL s ≠ [] := by
  cases s with
  | nil => simp [splitNL]
  | cons c rest =>
    simp only [splitNL]
    split
    · simp
    · cases h : splitNL rest <;> simp

/-- Pieces of `split('\n')` contain no newline. -/
theorem mem_splitNL_no_newline (s : Str) :
    ∀ x ∈ splitNL s, '\n' ∉ x := by
  induction s with
  | nil => intro x hx; simp [splitNL] at hx; simp [hx]
  | cons c rest ih =>
    intro x hx
    simp only [splitNL] at hx
    by_cases hc : c = '\n'
    · rw [if_pos hc] at hx
      rcases List.mem_cons.mp hx with rfl | hx
      · simp
      · exact ih x hx
    · rw [if_neg hc] at hx
      rcases hsp : splitNL rest with _ | ⟨h, t⟩
      · exact absurd hsp (splitNL_ne_nil rest)
      · rw [hsp] at hx
        rcases List.mem_cons.mp hx with rfl | hx
        · intro hmem
          rcases List.mem_cons.mp hmem with h1 | h1
          · exact hc h1.symm
          · exact ih h (hsp ▸ List.mem_cons_self h t) h1
        · exact ih x (hsp ▸ List.mem_cons_of_mem h hx)

/-- A newline-free string splits to itself. -/
theorem splitNL_no_newline (b : Str) (h : '\n' ∉ b) : splitNL b = [b] := by
  induction b with
  | nil => simp [splitNL]
  | cons c rest ih =>
    have hc : c ≠ '\n' := fun hh => h (hh ▸ List.mem_cons_self c rest)
    have hrest : '\n' ∉ rest := fun hh => h (List.mem_cons_of_mem c hh)
    simp only [splitNL, if_neg hc, ih hrest]

/-- Splitting after a newline-free head piece. -/
theorem splitNL_append (b rest : Str) (h : '\n' ∉ b) :
    splitNL (b ++ '\n' :: rest) = b :: splitNL rest := by
  induction b with
  | nil => simp [splitNL]
  | cons c b' ih =>
    have hc : c ≠ '\n' := fun hh => h (hh ▸ List.mem_cons_self c b')
    have hb' : '\n' ∉ b' := fun hh => h (List.mem_cons_of_mem c hh)
    simp only [List.cons_append, splitNL, if_neg hc, List.append_eq, ih hb']

/-- `join('\n')` and `split('\n')` are inverse on non-empty lists of
newline-free pieces. -/
theorem splitNL_intercalNL (B : List Str) (hne : B ≠ [])
    (h : ∀ b ∈ B, '\n' ∉ b) : splitNL (intercalNL B) = B := by
  induction B with
  | nil => exact absurd rfl hne
  | cons b bs ih =>
    cases bs with
    | nil =>
      simp only [intercalNL, joinTailNL, List.map_nil, List.flatten_nil,
        List.append_nil]
      exact splitNL_no_newline b (h b (List.mem_cons_self b []))
    | cons b' bs' =>
      have hstep : intercalNL (b :: b' :: bs') = b ++ '\n' :: intercalNL (b' :: bs') := by
        simp [intercalNL, joinTailNL]
      rw [hstep, splitNL_append b _ (h b (List.mem_cons_self b _)),
        ih (by simp) (fun x hx => h x (List.mem_cons_of_mem b hx))]

/-- `dropWhile` is idempotent. -/
theorem dropWhile_dropWhile (p : α → Bool) (l : List α) :
    (l.dropWhile p).dropWhile p = l.dropWhile p := by
  induction l with
  | nil => rfl
  | cons a l' ih =>
    by_cases h : p a
    · simp [List.dropWhile_cons, h, ih]
    · simp [List.dropWhile_cons, h]

/-! ## Greedy-fill lemmas -/

/-- `joinCollapse` from a non-empty accumulator appends every line after a
newline. -/
theorem joinCollapse_ne_nil (B : List Str) (acc : Str) (hacc : acc ≠ []) :
    joinCollapse acc B = acc ++ joinTailNL B := by
  induction B generalizing acc with
  | nil => simp [joinCollapse, joinTailNL]
  | cons b bs ih =>
    simp only [joinCollapse, if_neg hacc]
    rw [ih _ (by simp)]
    simp [joinTailNL]

/-- `joinCollapse` from the empty accumulator drops leading empty lines and
joins the rest with newlines. -/
theorem joinCollapse_nil (B : List Str) :
    joinCollapse [] B = intercalNL (B.dropWhile (fun b => b.isEmpty)) := by
  induction B with
  | nil => simp [joinCollapse, intercalNL]
  | cons b bs ih =>
    by_cases hb : b = []
    · subst hb
      simpa [joinCollapse, List.dropWhile_cons] using ih
    · rw [List.dropWhile_cons, if_neg (by simpa using hb)]
      simp only [joinCollapse, eq_self_iff_true, if_true]
      rw [joinCollapse_ne_nil bs b hb]
      rfl

/-- The partial fill accepts its own output. -/
theorem acceptedLines_self (cnt : Str → Nat) (ls : List Str) (rem : ℚ) :
    acceptedLines cnt (acceptedLines cnt ls rem) rem
      = acceptedLines cnt ls rem := by
  induction ls generalizing rem with
  | nil => rfl
  | cons l rest ih =>
    by_cases h : 0 ≤ rem - cnt l
    · simp only [acceptedLines, if_pos h, ih (rem - cnt l)]
    · simp only [acceptedLines, if_neg h]

/-- Full acceptance is monotone in the budget. -/
theorem acceptedLines_mono (cnt : Str → Nat) (ls : List Str) (rem rem' : ℚ)
    (hle : rem ≤ rem') (hfull : acceptedLines cnt ls rem = ls) :
    acceptedLines cnt ls rem' = ls := by
  induction ls generalizing rem rem' with
  | nil => rfl
  | cons l rest ih =>
    by_cases h : 0 ≤ rem - cnt l
    · rw [acceptedLines, if_pos h] at hfull
      have htail := List.cons.injEq l _ l rest ▸ hfull
      have h2 : acceptedLines cnt rest (rem - cnt l) = rest := by
        have := (List.cons.injEq l (acceptedLines cnt rest (rem - cnt l)) l rest).mp hfull
        exact this.2
      rw [acceptedLines, if_pos (by linarith), ih _ _ (by linarith) h2]
    · rw [acceptedLines, if_neg h] at hfull
      exact absurd hfull.symm (List.cons_ne_nil l rest)

/-- Full acceptance survives dropping the leading empty lines. -/
theorem acceptedLines_dropWhile (cnt : Str → Nat) (A : List Str) (rem : ℚ)
    (hfull : acceptedLines cnt A rem = A) :
    acceptedLines cnt (A.dropWhile (fun b => b.isEmpty)) rem
      = A.dropWhile (fun b => b.isEmpty) := by
  induction A generalizing rem with
  | nil => rfl
  | cons a A' ih =>
    by_cases h : 0 ≤ rem - cnt a
    · rw [acceptedLines, if_pos h] at hfull
      have h2 : acceptedLines cnt A' (rem - cnt a) = A' :=
        ((List.cons.injEq a (acceptedLines cnt A' (rem - cnt a)) a A').mp
          hfull).2
      by_cases ha : a = []
      · subst ha
        rw [List.dropWhile_cons, if_pos (by simp)]
        have h3 : acceptedLines cnt A' rem = A' :=
          acceptedLines_mono cnt A' (rem - cnt ([] : Str)) rem
            (by have h0 : (0:ℚ) ≤ (cnt ([] : Str) : ℚ) := Nat.cast_nonneg _
                linarith) h2
        exact ih rem h3
      · rw [List.dropWhile_cons, if_neg (by simpa using ha)]
        rw [acceptedLines, if_pos h, h2]
    · rw [acceptedLines, if_neg h] at hfull
      exact absurd hfull.symm (List.cons_ne_nil a A')

/-- Accepted lines come from the input lines. -/
theorem mem_acceptedLines (cnt : Str → Nat) (ls : List Str) (rem : ℚ)
    (x : Str) (hx : x ∈ acceptedLines cnt ls rem) : x ∈ ls := by
  induction ls generalizing rem with
  | nil => simp [acceptedLines] at hx
  | cons l rest ih =>
    by_cases h : 0 ≤ rem - cnt l
    · rw [acceptedLines, if_pos h] at hx
      rcases List.mem_cons.mp hx with rfl | hx
      · exact List.mem_cons_self _ _
      · exact List.mem_cons_of_mem l (ih _ hx)
    · rw [acceptedLines, if_neg h] at hx
      simp at hx

/-- The inner line loop, described by the greedily accepted lines: the
accumulated contents are the `joinCollapse` of the accepted lines, the
remaining budget drops by their total token count. -/
theorem fillLines_eq (cnt : Str → Nat) (ls : List Str) (rem : ℚ) (acc : Str) :
    fillLines cnt ls rem acc
      = (joinCollapse acc (acceptedLines cnt ls rem),
        rem - ((acceptedLines cnt ls rem).map (fun l => (cnt l : ℚ))).sum) := by
  induction ls generalizing rem acc with
  | nil => simp [fillLines, acceptedLines, joinCollapse]
  | cons l rest ih =>
    by_cases h : 0 ≤ rem - cnt l
    · simp only [fillLines, acceptedLines, if_pos h, ih, joinCollapse,
        List.map_cons, List.sum_cons]
      rw [Prod.mk.injEq]
      exact ⟨rfl, by ring⟩
    · simp only [fillLines, acceptedLines, if_neg h, joinCollapse,
        List.map_nil, List.sum_nil, sub_zero]

/-- The partial fill never drives the remaining budget negative. -/
theorem acceptedLines_remaining_nonneg (cnt : Str → Nat) (ls : List Str)
    (rem : ℚ) (h : 0 ≤ rem) :
    0 ≤ rem - ((acceptedLines cnt ls rem).map (fun l => (cnt l : ℚ))).sum := by
  induction ls generalizing rem with
  | nil => simpa [acceptedLines]
  | cons l rest ih =>
    by_cases hl : 0 ≤ rem - cnt l
    · simp only [acceptedLines, if_pos hl, List.map_cons, List.sum_cons]
      have := ih (rem - cnt l) hl
      linarith
    · simp only [acceptedLines, if_neg hl, List.map_nil, List.sum_nil]
      linarith

/-- Unfolding `fillAux` on a snippet that fits whole. -/
theorem fillAux_cons_fit (cnt : Str → Nat) (s : ScoredSnippet)
    (rest : List ScoredSnippet) (rem : ℚ) (h : 0 ≤ rem - cnt s.contents) :
    fillAux cnt (s :: rest) rem
      = (s :: (fillAux cnt rest (rem - cnt s.contents)).1,
        (fillAux cnt rest (rem - cnt s.contents)).2) := by
  simp only [fillAux, if_pos h]

/-- Unfolding `fillAux` on a snippet that does not fit whole: the partial
fill runs and the loop breaks. -/
theorem fillAux_cons_nofit (cnt : Str → Nat) (s : ScoredSnippet)
    (rest : List ScoredSnippet) (rem : ℚ) (h : ¬ 0 ≤ rem - cnt s.contents) :
    fillAux cnt (s :: rest) rem
      = (if (fillLines cnt (splitNL s.contents) rem []).1 = [] then ([], (fillLines cnt (splitNL s.contents) rem []).2)
         else ([{ s with contents := (fillLines cnt (splitNL s.contents) rem []).1 }],
           (fillLines cnt (splitNL s.contents) rem []).2)) := by
  simp only [fillAux, if_neg h]

/-- The loop's `tokensRemaining` stays non-negative from a non-negative
budget: the total charged tokens never exceed the budget. -/
theorem fillAux_remaining_nonneg (cnt : Str → Nat)
    (snippets : List ScoredSnippet) (rem : ℚ) (h : 0 ≤ rem) :
    0 ≤ (fillAux cnt snippets rem).2 := by
  induction snippets generalizing rem with
  | nil => simpa [fillAux]
  | cons s rest ih =>
    by_cases hfit : 0 ≤ rem - cnt s.contents
    · rw [fillAux_cons_fit cnt s rest rem hfit]
      exact ih _ hfit
    · rw [fillAux_cons_nofit cnt s rest rem hfit]
      have h2 := acceptedLines_remaining_nonneg cnt (splitNL s.contents) rem h
      rw [fillLines_eq]
      split <;> simpa using h2

/-- Re-running the partial line fill on its own non-empty output reproduces
it unchanged. -/
theorem fillLines_partial_idem (cnt : Str → Nat) (ls : List Str) (rem : ℚ)
    (hnl : ∀ x ∈ ls, '\n' ∉ x)
    (hne : (fillLines cnt ls rem []).1 ≠ []) :
    (fillLines cnt (splitNL (fillLines cnt ls rem []).1) rem []).1
      = (fillLines cnt ls rem []).1 := by
  have heq := fillLines_eq cnt ls rem []
  set A := acceptedLines cnt ls rem with hA
  have hp : (fillLines cnt ls rem []).1 = joinCollapse [] A := by rw [heq]
  set B := A.dropWhile (fun b => b.isEmpty) with hB
  have hpB : (fillLines cnt ls rem []).1 = intercalNL B := by
    rw [hp, joinCollapse_nil]
  have hBne : B ≠ [] := by
    intro hBnil
    rw [hpB, hBnil] at hne
    exact hne rfl
  have hBnl : ∀ b ∈ B, '\n' ∉ b := by
    intro b hb
    exact hnl b (mem_acceptedLines cnt ls rem b
      ((List.dropWhile_sublist _).subset (hB ▸ hb)))
  have hsplit : splitNL (fillLines cnt ls rem []).1 = B := by
    rw [hpB, splitNL_intercalNL B hBne hBnl]
  have hAfull : acceptedLines cnt A rem = A := acceptedLines_self cnt ls rem
  have hBfull : acceptedLines cnt B rem = B := by
    rw [hB]
    exact acceptedLines_dropWhile cnt A rem hAfull
  rw [hsplit, fillLines_eq, hBfull, joinCollapse_nil, hpB]
  rw [dropWhile_dropWhile]

/-- The fill of a list starting with a snippet that fits whole. -/
theorem fill_cons_fit (cnt : Str → Nat) (s : ScoredSnippet)
    (rest : List ScoredSnippet) (rem : ℚ) (h : 0 ≤ rem - cnt s.contents) :
    fillPromptWithSnippets cnt (s :: rest) rem
      = s :: fillPromptWithSnippets cnt rest (rem - cnt s.contents) := by
  unfold fillPromptWithSnippets
  rw [fillAux_cons_fit cnt s rest rem h]

/-- The fill of a list starting with a snippet that does not fit whole. -/
theorem fill_cons_nofit (cnt : Str → Nat) (s : ScoredSnippet)
    (rest : List ScoredSnippet) (rem : ℚ) (h : ¬ 0 ≤ rem - cnt s.contents) :
    fillPromptWithSnippets cnt (s :: rest) rem
      = (if (fillLines cnt (splitNL s.contents) rem []).1 = [] then []
         else [{ s with contents := (fillLines cnt (splitNL s.contents) rem []).1 }]) := by
  unfold fillPromptWithSnippets
  rw [fillAux_cons_nofit cnt s rest rem h]
  split <;> rfl

/-- Idempotence of the greedy fill. -/
theorem fill_idem (cnt : Str → Nat) (snippets : List ScoredSnippet) (rem : ℚ) :
    fillPromptWithSnippets cnt (fillPromptWithSnippets cnt snippets rem) rem
      = fillPromptWithSnippets cnt snippets rem := by
  induction snippets generalizing rem with
  | nil => rfl
  | cons s rest ih =>
    by_cases hfit : 0 ≤ rem - cnt s.contents
    · rw [fill_cons_fit cnt s rest rem hfit, fill_cons_fit cnt s _ rem hfit,
        ih (rem - cnt s.contents)]
    · rw [fill_cons_nofit cnt s rest rem hfit]
      by_cases hp : (fillLines cnt (splitNL s.contents) rem []).1 = []
      · rw [if_pos hp]
        rfl
      · rw [if_neg hp]
        by_cases hfit2 :
            0 ≤ rem - cnt ({ s with contents := (fillLines cnt (splitNL s.contents) rem []).1 } : ScoredSnippet).contents
        · rw [fill_cons_fit cnt _ [] rem hfit2]
          rfl
        · rw [fill_cons_nofit cnt _ [] rem hfit2]
          have hidem := fillLines_partial_idem cnt (splitNL s.contents) rem
            (mem_splitNL_no_newline s.contents) hp
          simp only [hidem]
          rw [if_neg hp]

/-! ## Greedy-fill claim theorems -/

/-- C5 (amended): from a non-negative budget, the final remaining-token
counter is non-negative — the total tokens the fill charges (each wholly
kept snippet charged `countTokens` of its contents, a partially kept one
charged line by line) never exceed the budget — and the fill is idempotent.
(As stated the claim fails: the partially kept snippet's contents rejoin its
accepted lines with newlines, which the per-line charging does not count, so
`countTokens` of the output can exceed the budget.) -/
theorem C5_fill_budget_and_idem (cnt : Str → Nat)
    (snippets : List ScoredSnippet) (budget : ℚ) :
    (0 ≤ budget → 0 ≤ (fillAux cnt snippets budget).2) ∧
      fillPromptWithSnippets cnt (fillPromptWithSnippets cnt snippets budget)
          budget
        = fillPromptWithSnippets cnt snippets budget :=
  ⟨fillAux_remaining_nonneg cnt snippets budget,
    fill_idem cnt snippets budget⟩

/-- Witness for C5 at a concrete input: one snippet `"a\nb\nc"` against a
budget of `2` under a per-character counter; the remaining counter ends
non-negative and re-running the fill is a fixed point. -/
theorem C5_fill_witness :
    (0 ≤ (fillAux (fun s => s.length)
        [⟨"a.ts", ⟨⟨0, 0⟩, ⟨1, 0⟩⟩, "a\nb\nc".data, 0⟩] 2).2) ∧
      fillPromptWithSnippets (fun s => s.length)
          (fillPromptWithSnippets (fun s => s.length)
            [⟨"a.ts", ⟨⟨0, 0⟩, ⟨1, 0⟩⟩, "a\nb\nc".data, 0⟩] 2) 2
        = fillPromptWithSnippets (fun s => s.length)
            [⟨"a.ts", ⟨⟨0, 0⟩, ⟨1, 0⟩⟩, "a\nb\nc".data, 0⟩] 2 :=
  ⟨(C5_fill_budget_and_idem (fun s => s.length)
      [⟨"a.ts", ⟨⟨0, 0⟩, ⟨1, 0⟩⟩, "a\nb\nc".data, 0⟩] 2).1
        (by with_unfolding_all decide),
    (C5_fill_budget_and_idem (fun s => s.length)
      [⟨"a.ts", ⟨⟨0, 0⟩, ⟨1, 0⟩⟩, "a\nb\nc".data, 0⟩] 2).2⟩

/-- Counterexample for C5 as stated: under the per-character counter, the
snippet `"a\nb\nc"` with budget `2` is partially kept as `"a\nb"`, whose
counted tokens sum to `3 > 2` — the rejoining newline was never charged. -/
theorem C5_fill_counterexample :
    ((fillPromptWithSnippets (fun s => s.length)
        [⟨"a.ts", ⟨⟨0, 0⟩, ⟨1, 0⟩⟩, "a\nb\nc".data, 0⟩] 2).map
      (fun t => t.contents.length)).sum = 3 ∧ ¬ ((3 : ℚ) ≤ 2) := by
  constructor
  · with_unfolding_all decide
  · with_unfolding_all decide

/-- C6 (amended): with a strictly negative budget the fill of any non-empty
candidate list is empty; with a budget of zero it is empty provided the
counter charges the first candidate's contents and each of its lines at
least one token.  (As stated the claim fails: a candidate counted zero
tokens — e.g. empty contents — is kept even at budget `0`.) -/
theorem C6_zero_budget (cnt : Str → Nat) (s : ScoredSnippet)
    (rest : List ScoredSnippet) (budget : ℚ) (hb : budget ≤ 0)
    (h : budget < 0 ∨
      (0 < cnt s.contents ∧ ∀ l ∈ splitNL s.contents, 0 < cnt l)) :
    fillPromptWithSnippets cnt (s :: rest) budget = [] := by
  have hno : ¬ 0 ≤ budget - cnt s.contents := by
    rcases h with h | ⟨h1, _⟩
    · have h0 : (0 : ℚ) ≤ (cnt s.contents : ℚ) := Nat.cast_nonneg _
      linarith
    · have h0 : (1 : ℚ) ≤ (cnt s.contents : ℚ) := by exact_mod_cast h1
      linarith
  rw [fill_cons_nofit cnt s rest budget hno]
  have hacc : acceptedLines cnt (splitNL s.contents) budget = [] := by
    cases hsp : splitNL s.contents with
    | nil => rfl
    | cons l0 ls =>
      have hl0 : ¬ 0 ≤ budget - cnt l0 := by
        rcases h with h | ⟨_, h2⟩
        · have h0 : (0 : ℚ) ≤ (cnt l0 : ℚ) := Nat.cast_nonneg _
          linarith
        · have h0 : (1 : ℚ) ≤ (cnt l0 : ℚ) := by
            exact_mod_cast h2 l0 (hsp ▸ List.mem_cons_self l0 ls)
          linarith
      rw [acceptedLines, if_neg hl0]
  rw [fillLines_eq, hacc]
  simp [joinCollapse]

/-- Witness for C6: a negative budget empties the fill of a one-element
candidate list. -/
theorem C6_zero_budget_witness :
    fillPromptWithSnippets (fun s => s.length)
      [⟨"a.ts", ⟨⟨0, 0⟩, ⟨1, 0⟩⟩, "x".data, 0⟩] (-1) = [] :=
  C6_zero_budget (fun s => s.length) ⟨"a.ts", ⟨⟨0, 0⟩, ⟨1, 0⟩⟩, "x".data, 0⟩
    [] (-1) (by norm_num) (Or.inl (by norm_num))

/-- Counterexample for C6 as stated: with budget exactly `0`, a candidate
whose contents count zero tokens (empty contents under the per-character
counter) is kept whole, so the packed list is not empty. -/
theorem C6_zero_budget_counterexample :
    fillPromptWithSnippets (fun s => s.length)
        [⟨"a.ts", ⟨⟨0, 0⟩, ⟨1, 0⟩⟩, [], 0⟩] 0
      = [⟨"a.ts", ⟨⟨0, 0⟩, ⟨1, 0⟩⟩, [], 0⟩] := by
  with_unfolding_all decide

/-! ## Overlap-merge claim theorems -/

/-- `slice(-k)` with `0 < k ≤ length` keeps the last `k` elements. -/
theorem jsSliceFrom_last (l : List α) (k : Nat) (h1 : 0 < k)
    (h2 : k ≤ l.length) :
    jsSliceFrom l (-(k : Int)) = l.drop (l.length - k) := by
  unfold jsSliceFrom jsSlice jsSliceIdx
  rw [if_pos (show -(k : Int) < 0 by omega),
    if_neg (show ¬ ((l.length : Int) < 0) by omega)]
  have he : min (Int.toNat (l.length : Int)) l.length = l.length := by omega
  have hs : (max ((l.length : Int) + -(k : Int)) 0).toNat = l.length - k := by
    omega
  rw [he, hs, List.take_length]

/-- C4 (amended): when the sweep merges `next` into the running snippet, the
running snippet's `range.end` has already been set to `next.range.end`, so
the combined contents are the last `next.range.end.line - next.range.start.line`
lines of the running text (not `running.range.end.line - next.range.start.line`
lines), followed by a newline and the next snippet's full text. -/
theorem C4_merge_contents (running next : ScoredSnippet)
    (_htrigger : next.range.start.line ≤ running.range.«end».line)
    (hk : 0 < next.range.«end».line - next.range.start.line)
    (hlen : (next.range.«end».line - next.range.start.line).toNat
      ≤ (splitNL running.contents).length) :
    (mergeStep running next).contents
      = intercalNL ((splitNL running.contents).drop
          ((splitNL running.contents).length
            - (next.range.«end».line - next.range.start.line).toNat))
        ++ '\n' :: next.contents := by
  unfold mergeStep mergeOverlappingRangeContents
  simp only
  have hcast : -(next.range.«end».line - next.range.start.line)
      = -(((next.range.«end».line - next.range.start.line).toNat : Nat) : Int) := by
    omega
  rw [hcast, jsSliceFrom_last (splitNL running.contents) _ (by omega) hlen]

/-- Witness for C4: running text `"x\ny\nz"` over lines `[0,10]`, next text
`"w"` over `[8,9]`: one line of overlap is taken from the running text after
the merge updated its end line to `9`. -/
theorem C4_merge_contents_witness :
    (mergeStep ⟨"f", ⟨⟨0, 0⟩, ⟨10, 0⟩⟩, "x\ny\nz".data, 0⟩
        ⟨"f", ⟨⟨8, 0⟩, ⟨9, 0⟩⟩, "w".data, 0⟩).contents
      = intercalNL ((splitNL ("x\ny\nz".data)).drop
          ((splitNL ("x\ny\nz".data)).length - (((9 : Int) - 8).toNat)))
        ++ '\n' :: "w".data :=
  C4_merge_contents ⟨"f", ⟨⟨0, 0⟩, ⟨10, 0⟩⟩, "x\ny\nz".data, 0⟩
    ⟨"f", ⟨⟨8, 0⟩, ⟨9, 0⟩⟩, "w".data, 0⟩ (by decide) (by decide) (by decide)

/-- Counterexample for C4 as stated: with running end line `10` (before the
merge) and next range `[8,9]`, the claim expects the last `10 - 8 = 2` lines
`"y\nz"` before `"w"`, but the source produces only the last `9 - 8 = 1`
line: `"z\nw"`. -/
theorem C4_merge_contents_counterexample :
    (mergeSnippetsByRange [⟨"f", ⟨⟨0, 0⟩, ⟨10, 0⟩⟩, "x\ny\nz".data, 0⟩,
        ⟨"f", ⟨⟨8, 0⟩, ⟨9, 0⟩⟩, "w".data, 0⟩]).map (fun s => s.contents)
      = ["z\nw".data] ∧ "z\nw".data ≠ "y\nz\nw".data := by
  constructor
  · with_unfolding_all decide
  · decide


/-! ## Deduplication claim theorems -/

/-- Two overlapping snippets of one file deduplicate to the single merged
snippet. -/
theorem deduplicateSnippets_pair (s1 s2 : ScoredSnippet)
    (hfp : s1.filepath = s2.filepath)
    (hstart : s1.range.start.line ≤ s2.range.start.line)
    (hov : s2.range.start.line ≤ s1.range.«end».line) :
    deduplicateSnippets [s1, s2] = [mergeStep s1 s2] := by
  have hsort : [s1, s2].insertionSort byStartLine = [s1, s2] := by
    simp [List.insertionSort, List.orderedInsert,
      show byStartLine s1 s2 from hstart]
  have hsweep : mergeSweep [] [s1, s2] = [mergeStep s1 s2] := by
    simp [mergeSweep, hov]
  have hmerge : mergeSnippetsByRange [s1, s2] = [mergeStep s1 s2] := by
    unfold mergeSnippetsByRange
    rw [if_neg (by simp), hsort, hsweep]
  have hkeys : firstOccurrences [s1.filepath, s2.filepath] = [s1.filepath] := by
    simp [firstOccurrences, firstOccurrencesAux, hfp.symm]
  have hfilter : [s1, s2].filter (fun s => s.filepath = s1.filepath)
      = [s1, s2] := by
    simp [List.filter_cons, hfp.symm]
  unfold deduplicateSnippets
  simp only [List.map_cons, List.map_nil]
  rw [hkeys]
  simp only [List.map_cons, List.map_nil, List.flatten]
  rw [hfilter, hmerge]
  simp

/-- C8 (amended): two snippets of the same file whose ranges overlap (ordered
by start line, the second starting at or before the first's end line)
deduplicate to exactly one snippet whose range runs from the first snippet's
start to the *second* snippet's end, with the maximum of the two scores.
(That range spans both inputs exactly when the second snippet ends no earlier
than the first; a nested second snippet shrinks the merged end below the
first snippet's.) -/
theorem C8_dedup_overlap (s1 s2 : ScoredSnippet)
    (hfp : s1.filepath = s2.filepath)
    (hstart : s1.range.start.line ≤ s2.range.start.line)
    (hov : s2.range.start.line ≤ s1.range.«end».line) :
    (deduplicateSnippets [s1, s2]).length = 1 ∧
      ∀ m ∈ deduplicateSnippets [s1, s2],
        m.filepath = s1.filepath ∧ m.range.start = s1.range.start ∧
          m.range.«end» = s2.range.«end» ∧
          m.score = max s1.score s2.score := by
  rw [deduplicateSnippets_pair s1 s2 hfp hstart hov]
  refine ⟨rfl, ?_⟩
  intro m hm
  rw [List.mem_singleton] at hm
  subst hm
  exact ⟨rfl, rfl, rfl, rfl⟩

/-- Witness for C8 — the spec's scenario: ranges `[10,20]` and `[15,25]` of
`fileA.ts` with scores `0.3` and `0.7` merge into one snippet `[10,25]` with
score `0.7`. -/
theorem C8_dedup_overlap_witness :
    (deduplicateSnippets [⟨"fileA.ts", ⟨⟨10, 0⟩, ⟨20, 0⟩⟩, "A".data, 3/10⟩,
        ⟨"fileA.ts", ⟨⟨15, 0⟩, ⟨25, 0⟩⟩, "B".data, 7/10⟩]).length = 1 ∧
      ∀ m ∈ deduplicateSnippets
          [⟨"fileA.ts", ⟨⟨10, 0⟩, ⟨20, 0⟩⟩, "A".data, 3/10⟩,
            ⟨"fileA.ts", ⟨⟨15, 0⟩, ⟨25, 0⟩⟩, "B".data, 7/10⟩],
        m.filepath = "fileA.ts" ∧ m.range.start = ⟨10, 0⟩ ∧
          m.range.«end» = ⟨25, 0⟩ ∧ m.score = max (3/10) (7/10) :=
  C8_dedup_overlap ⟨"fileA.ts", ⟨⟨10, 0⟩, ⟨20, 0⟩⟩, "A".data, 3/10⟩
    ⟨"fileA.ts", ⟨⟨15, 0⟩, ⟨25, 0⟩⟩, "B".data, 7/10⟩
    (by decide) (by decide) (by decide)

/-- Counterexample for C8 as stated: a nested second range `[15,20]` inside
`[10,30]` merges to `[10,20]`, which does not span the first input range
(`20 < 30`) — the merged range is not the union of the two. -/
theorem C8_dedup_overlap_counterexample :
    (deduplicateSnippets [⟨"f", ⟨⟨10, 0⟩, ⟨30, 0⟩⟩, "A".data, 3/10⟩,
        ⟨"f", ⟨⟨15, 0⟩, ⟨20, 0⟩⟩, "B".data, 7/10⟩]).map
      (fun m => (m.range.start.line, m.range.«end».line)) = [(10, 20)]
      ∧ ¬ ((30 : Int) ≤ 20) := by
  constructor
  · with_unfolding_all decide
  · decide

/-! ## Range-exclusion claim theorems -/

/-- What a non-null line intersection satisfies. -/
theorem rangeIntersectionByLines_eq_some (a b i : Range)
    (h : rangeIntersectionByLines a b = some i) :
    i.start.line = max a.start.line b.start.line ∧
      i.«end».line = min a.«end».line b.«end».line ∧
      i.start.line < i.«end».line := by
  simp only [rangeIntersectionByLines] at h
  by_cases hcond : a.start.line ⊔ b.start.line ≥ a.«end».line ⊓ b.«end».line
  · rw [if_pos hcond] at h
    exact absurd h (by simp)
  · rw [if_neg hcond] at h
    obtain rfl := Option.some.inj h
    refine ⟨rfl, rfl, ?_⟩
    dsimp only
    omega

/-- Every range produced by the line difference stays line-contained in the
original, provided the removed range already is and is non-degenerate. -/
theorem rangeDifferenceByLines_contained (orig rm : Range)
    (h1 : orig.start.line ≤ rm.start.line)
    (h2 : rm.«end».line ≤ orig.«end».line)
    (h3 : rm.start.line < rm.«end».line) :
    ∀ rg ∈ rangeDifferenceByLines orig rm,
      orig.start.line ≤ rg.start.line ∧
        rg.«end».line ≤ orig.«end».line := by
  intro rg hrg
  unfold rangeDifferenceByLines at hrg
  split_ifs at hrg with hA hB hC hD
  · simp at hrg
  · simp only [List.mem_cons, List.mem_singleton, List.not_mem_nil,
      or_false] at hrg
    rcases hrg with rfl | rfl
    · constructor <;> (dsimp only; omega)
    · constructor <;> (dsimp only; omega)
  · rw [List.mem_singleton] at hrg
    subst hrg
    constructor <;> (dsimp only; omega)
  · rw [List.mem_singleton] at hrg
    subst hrg
    constructor <;> (dsimp only; omega)
  · rw [List.mem_singleton] at hrg
    subst hrg
    exact ⟨le_refl _, le_refl _⟩

/-- C10: every output of `removeRangeFromSnippets` keeps the filepath, score
and contents of the input it derives from and its range stays line-contained
in that input's range; and every input snippet of another file passes through
as an element of the output. -/
theorem C10_removeRange_frame (snippets : List ScoredSnippet)
    (filepath : String) (range : Range) :
    (∀ out ∈ removeRangeFromSnippets snippets filepath range,
      ∃ inp ∈ snippets, out.filepath = inp.filepath ∧ out.score = inp.score ∧
        out.contents = inp.contents ∧
        inp.range.start.line ≤ out.range.start.line ∧
        out.range.«end».line ≤ inp.range.«end».line) ∧
    (∀ inp ∈ snippets, inp.filepath ≠ filepath →
      inp ∈ removeRangeFromSnippets snippets filepath range) := by
  induction snippets with
  | nil => simp [removeRangeFromSnippets]
  | cons s rest ih =>
    constructor
    · intro out hout
      rw [removeRangeFromSnippets] at hout
      rcases List.mem_append.mp hout with hhead | htail
      · by_cases hfp : s.filepath ≠ filepath
        · rw [if_pos hfp, List.mem_singleton] at hhead
          subst hhead
          exact ⟨out, List.mem_cons_self out rest, rfl, rfl, rfl, le_refl _,
            le_refl _⟩
        · rw [if_neg hfp] at hhead
          rcases hint : rangeIntersectionByLines range s.range with _ | inter
          · simp only [hint, List.mem_singleton] at hhead
            subst hhead
            exact ⟨out, List.mem_cons_self out rest, rfl, rfl, rfl, le_refl _,
              le_refl _⟩
          · simp only [hint, List.mem_map] at hhead
            rcases hhead with ⟨rg, hrg, rfl⟩
            obtain ⟨hi1, hi2, hi3⟩ :=
              rangeIntersectionByLines_eq_some range s.range inter hint
            have hcont := rangeDifferenceByLines_contained s.range inter
              (by omega) (by omega) hi3 rg hrg
            exact ⟨s, List.mem_cons_self s rest, rfl, rfl, rfl, hcont.1,
              hcont.2⟩
      · rcases ih.1 out htail with ⟨inp, hinp, hfacts⟩
        exact ⟨inp, List.mem_cons_of_mem s hinp, hfacts⟩
    · intro inp hinp hfp
      rw [removeRangeFromSnippets]
      rcases List.mem_cons.mp hinp with rfl | hmem
      · apply List.mem_append_left
        rw [if_pos hfp]
        exact List.mem_singleton.mpr rfl
      · exact List.mem_append_right _ (ih.2 inp hmem hfp)

/-- Witness for C10 at a concrete input: one snippet of the edited file and
one of another file, against the protected range `[5,20]`. -/
theorem C10_removeRange_frame_witness :
    (∀ out ∈ removeRangeFromSnippets
        [⟨"cur.ts", ⟨⟨0, 0⟩, ⟨10, 0⟩⟩, "A".data, 1⟩,
          ⟨"other.ts", ⟨⟨0, 0⟩, ⟨3, 0⟩⟩, "B".data, 1⟩] "cur.ts"
        ⟨⟨5, 0⟩, ⟨20, 0⟩⟩,
      ∃ inp ∈ [⟨"cur.ts", ⟨⟨0, 0⟩, ⟨10, 0⟩⟩, "A".data, 1⟩,
          (⟨"other.ts", ⟨⟨0, 0⟩, ⟨3, 0⟩⟩, "B".data, 1⟩ : ScoredSnippet)],
        out.filepath = inp.filepath ∧ out.score = inp.score ∧
          out.contents = inp.contents ∧
          inp.range.start.line ≤ out.range.start.line ∧
          out.range.«end».line ≤ inp.range.«end».line) ∧
    (∀ inp ∈ [⟨"cur.ts", ⟨⟨0, 0⟩, ⟨10, 0⟩⟩, "A".data, 1⟩,
        (⟨"other.ts", ⟨⟨0, 0⟩, ⟨3, 0⟩⟩, "B".data, 1⟩ : ScoredSnippet)],
      inp.filepath ≠ "cur.ts" →
      inp ∈ removeRangeFromSnippets
        [⟨"cur.ts", ⟨⟨0, 0⟩, ⟨10, 0⟩⟩, "A".data, 1⟩,
          ⟨"other.ts", ⟨⟨0, 0⟩, ⟨3, 0⟩⟩, "B".data, 1⟩] "cur.ts"
        ⟨⟨5, 0⟩, ⟨20, 0⟩⟩) :=
  C10_removeRange_frame
    [⟨"cur.ts", ⟨⟨0, 0⟩, ⟨10, 0⟩⟩, "A".data, 1⟩,
      ⟨"other.ts", ⟨⟨0, 0⟩, ⟨3, 0⟩⟩, "B".data, 1⟩] "cur.ts" ⟨⟨5, 0⟩, ⟨20, 0⟩⟩

/-! ## Directory-walk claim theorems -/

/-- Names of the subdirectories among a list of entries. -/
def dirNames : List FSEntry → List String
  | [] => []
  | FSEntry.file _ :: rest => dirNames rest
  | FSEntry.dir n _ :: rest => n :: dirNames rest

/-- The walk returns one path per file of the tree: nothing caps the count. -/
theorem getFilesFromDirectory_length (dirPath : List String)
    (es : List FSEntry) :
    (getFilesFromDirectory dirPath es).length = totalFiles es := by
  induction dirPath, es using getFilesFromDirectory.induct with
  | case1 p => simp [getFilesFromDirectory, totalFiles]
  | case2 p name rest ih =>
    simp [getFilesFromDirectory, totalFiles, ih]
    omega
  | case3 p name entries rest ih1 ih2 =>
    simp [getFilesFromDirectory, totalFiles, ih1, ih2]

/-- A flat directory of `n` files counts `n` files. -/
theorem totalFiles_flatFiles (n : Nat) : totalFiles (flatFiles n) = n := by
  have haux : ∀ l : List Nat, totalFiles (l.map (fun i => FSEntry.file (toString i))) = l.length := by
    intro l
    induction l with
    | nil => simp [totalFiles]
    | cons x xs ih =>
      simp [totalFiles, ih]
      omega
  rw [flatFiles, haux, List.length_range]

/-- Counterexample for C3 as stated: no bound caps the number of files the
walk returns — for every candidate maximum `B` the flat tree with `B + 1`
files beats it (the source threads no maximum file count at all). -/
theorem C3_walk_counterexample :
    ¬ ∃ B : Nat, ∀ es : List FSEntry,
      (getFilesFromDirectory [] es).length ≤ B := by
  rintro ⟨B, hB⟩
  have h := hB (flatFiles (B + 1))
  rw [getFilesFromDirectory_length, totalFiles_flatFiles] at h
  omega

/-- Every directory the walk visits below `dirPath` extends `dirPath` by the
name of some subdirectory of the entry list. -/
theorem visitedDirs_shape (dirPath : List String) (es : List FSEntry) :
    ∀ q ∈ visitedDirs dirPath es,
      dirPath.length < q.length ∧
        ∃ n ∈ dirNames es, q.take (dirPath.length + 1) = dirPath ++ [n] := by
  induction dirPath, es using visitedDirs.induct with
  | case1 p => simp [visitedDirs]
  | case2 p name rest ih =>
    intro q hq
    rw [visitedDirs] at hq
    obtain ⟨hlen, n, hn, htake⟩ := ih q hq
    exact ⟨hlen, n, by simp [dirNames, hn], htake⟩
  | case3 p name entries rest ih1 ih2 =>
    intro q hq
    rw [visitedDirs] at hq
    rcases List.mem_cons.mp hq with rfl | hq'
    · refine ⟨by simp, name, by simp [dirNames], ?_⟩
      have hlen : (p ++ [name]).length = p.length + 1 := by simp
      rw [← hlen, List.take_length]
    · rcases List.mem_append.mp hq' with hq2 | hq2
      · obtain ⟨hlen, m, hm, htake⟩ := ih1 q hq2
        have hplen : (p ++ [name]).length = p.length + 1 := by simp
        rw [hplen] at hlen htake
        refine ⟨by omega, name, by simp [dirNames], ?_⟩
        have h2 := congrArg (List.take (p.length + 1)) htake
        rw [List.take_take, min_eq_left (by omega)] at h2
        rw [h2, ← hplen, List.take_left]
      · obtain ⟨hlen, n, hn, htake⟩ := ih2 q hq2
        exact ⟨hlen, n, by simp [dirNames, hn], htake⟩

/-- A name in `dirNames` names an entry of the list. -/
theorem mem_dirNames (es : List FSEntry) (n : String) (h : n ∈ dirNames es) :
    ∃ e ∈ es, entryName e = n := by
  induction es with
  | nil => simp [dirNames] at h
  | cons e rest ih =>
    cases e with
    | file name =>
      rw [dirNames] at h
      obtain ⟨e', he', hname⟩ := ih h
      exact ⟨e', List.mem_cons_of_mem _ he', hname⟩
    | dir name entries =>
      rw [dirNames] at h
      rcases List.mem_cons.mp h with rfl | h'
      · exact ⟨FSEntry.dir n entries, List.mem_cons_self _ _, rfl⟩
      · obtain ⟨e', he', hname⟩ := ih h'
        exact ⟨e', List.mem_cons_of_mem _ he', hname⟩

/-- In a well-formed tree (distinct sibling names) the walk's visited
directory list has no duplicates: each directory is read at most once. -/
theorem visitedDirs_nodup (dirPath : List String) (es : List FSEntry)
    (hwf : wfEntries es = true) : (visitedDirs dirPath es).Nodup := by
  induction dirPath, es using visitedDirs.induct with
  | case1 p => simp [visitedDirs]
  | case2 p name rest ih =>
    rw [visitedDirs]
    rw [wfEntries, Bool.and_eq_true] at hwf
    exact ih hwf.2
  | case3 p name entries rest ih1 ih2 =>
    rw [visitedDirs]
    rw [wfEntries, Bool.and_eq_true, Bool.and_eq_true] at hwf
    obtain ⟨⟨hall, hwfe⟩, hwfr⟩ := hwf
    have hplen : (p ++ [name]).length = p.length + 1 := by simp
    have hall' : ∀ e ∈ rest, entryName e ≠ name := by
      intro e he
      have h := List.all_eq_true.mp hall e he
      simpa using h
    rw [List.nodup_cons]
    constructor
    · intro hmem
      rcases List.mem_append.mp hmem with h1 | h2
      · obtain ⟨hlen, _⟩ := visitedDirs_shape (p ++ [name]) entries _ h1
        simp at hlen
      · obtain ⟨hlen, n2, hn2, htake⟩ := visitedDirs_shape p rest _ h2
        have hfull : (p ++ [name]).take (p.length + 1) = p ++ [name] := by
          rw [← hplen, List.take_length]
        rw [hfull] at htake
        have hn : name = n2 := by
          have h3 := List.append_cancel_left htake
          simpa using h3
        obtain ⟨e, he, hename⟩ := mem_dirNames rest n2 hn2
        exact hall' e he (hn ▸ hename)
    · apply List.Nodup.append (ih1 hwfe) (ih2 hwfr)
      intro q hq1 hq2
      obtain ⟨hlen1, m, hm, htake1⟩ :=
        visitedDirs_shape (p ++ [name]) entries q hq1
      obtain ⟨hlen2, n2, hn2, htake2⟩ := visitedDirs_shape p rest q hq2
      rw [hplen] at htake1
      have h2 := congrArg (List.take (p.length + 1)) htake1
      rw [List.take_take, min_eq_left (by omega)] at h2
      have h3 : ((p ++ [name]) ++ [m]).take (p.length + 1) = p ++ [name] := by
        rw [← hplen]
        exact List.take_left _ _
      rw [h3] at h2
      have h4 : (p ++ [name] : List String) = p ++ [n2] := h2.symm.trans htake2
      have hn : name = n2 := by
        have h5 := List.append_cancel_left h4
        simpa using h5
      obtain ⟨e, he, hename⟩ := mem_dirNames rest n2 hn2
      exact hall' e he (hn ▸ hename)

/-- C3 (amended): in a directory tree with distinct sibling names, the walk
reads each directory at most once (the start directory and every visited
subdirectory appear once in the visit list); and it returns exactly one path
per file of the tree — no maximum total file count is enforced (the source
threads no cap). -/
theorem C3_walk_once_no_cap (dirPath : List String) (es : List FSEntry)
    (hwf : wfEntries es = true) :
    (dirPath :: visitedDirs dirPath es).Nodup ∧
      (getFilesFromDirectory dirPath es).length = totalFiles es := by
  constructor
  · rw [List.nodup_cons]
    refine ⟨?_, visitedDirs_nodup dirPath es hwf⟩
    intro hmem
    obtain ⟨hlen, _⟩ := visitedDirs_shape dirPath es dirPath hmem
    omega
  · exact getFilesFromDirectory_length dirPath es

/-- Witness for C3 at a concrete two-level tree. -/
theorem C3_walk_witness :
    (([] : List String) :: visitedDirs []
        [FSEntry.dir "d" [FSEntry.file "x"], FSEntry.file "y"]).Nodup ∧
      (getFilesFromDirectory []
          [FSEntry.dir "d" [FSEntry.file "x"], FSEntry.file "y"]).length
        = totalFiles [FSEntry.dir "d" [FSEntry.file "x"], FSEntry.file "y"] :=
  C3_walk_once_no_cap [] [FSEntry.dir "d" [FSEntry.file "x"], FSEntry.file "y"]
    (by simp [wfEntries, entryName])
